import Mathlib

/-!
Verification of the Mash conversation platform against its specification.

Frontend helpers are embedded from `src/frontend/src/lib/utils.ts` and the
API client in `src/frontend/src/middleware.ts` (the `fetchAPI` wrapper).
JavaScript strings are modelled as `List Char` so that length and slicing
arguments are available.  The backend orchestration core (Event Store,
Conversation State, Agent Router, Workflow Engine, Tool Executor,
Orchestrator) is implemented in Python and is not part of the checked-in
sources; those components are modelled from the specification, and each such
definition carries a doc comment saying so.
-/

namespace Mash

/-! ### Frontend: `truncate` from src/frontend/src/lib/utils.ts -/

/-- Embedding of `truncate(str, length)`: if the string is short enough it is
returned unchanged, otherwise the first `n` characters are kept and `"..."`
is appended. -/
def truncate (str : List Char) (n : Nat) : List Char :=
  if str.length ≤ n then str
  else str.take n ++ ['.', '.', '.']

/-! ### Frontend: `getInitials` from src/frontend/src/lib/utils.ts -/

/-- Model of JavaScript `String.prototype.split` with a single-character
separator: splitting never yields an empty list of parts, and adjacent
separators produce empty parts, exactly as in JS. -/
def jsSplit (sep : Char) : List Char → List (List Char)
  | [] => [[]]
  | c :: rest =>
    match jsSplit sep rest with
    | [] => [[]]
    | w :: ws => if c = sep then [] :: w :: ws else (c :: w) :: ws

/-- Model of JavaScript `s.slice(-2)`: the last two characters (the whole
string when it is shorter than two characters). -/
def jsSliceLast2 (l : List Char) : List Char :=
  l.drop (l.length - 2)

/-- Embedding of the regular-expression test `/^\d+$/.test(input)`. -/
def isAllDigits (l : List Char) : Bool :=
  !l.isEmpty && l.all Char.isDigit

/-- Embedding of `getInitials(input)`: `"?"` for the empty string; for a
phone-like input (leading `'+'` or all digits) the last two characters
uppercased; otherwise the first letter of each space-separated word, joined,
cut to two characters, and uppercased.  `w[0]` of an empty word is
`undefined`, which `join('')` renders as the empty string, hence `take 1`
followed by flattening. -/
def getInitials (input : List Char) : List Char :=
  if input.isEmpty then ['?']
  else if input.head? = some '+' || isAllDigits input then
    (jsSliceLast2 input).map Char.toUpper
  else
    ((((jsSplit ' ' input).map (List.take 1)).flatten).take 2).map Char.toUpper

/-! ### Frontend: `fetchAPI` from the API client in src/frontend/src/middleware.ts -/

/-- The observable parts of an HTTP response consumed by `fetchAPI`:
the `ok` flag, the numeric status code, and the body text. -/
structure HttpResponse where
  ok : Bool
  status : Nat
  bodyText : String
deriving DecidableEq, Repr

/-- The `APIError` class thrown by the client: status code plus message. -/
structure APIError where
  status : Nat
  message : String
deriving DecidableEq, Repr

/-- The successful outcomes of `fetchAPI`: the empty-body case returns a
fresh empty object, otherwise the body text is handed to `JSON.parse`. -/
inductive FetchSuccess where
  | emptyObject : FetchSuccess
  | parsed (text : String) : FetchSuccess
deriving DecidableEq, Repr

/-- Embedding of `fetchAPI`'s response handling: a non-ok response throws
`APIError(status, bodyText)`; an ok response with an empty body returns the
empty object; otherwise the body is parsed. -/
def fetchAPI (response : HttpResponse) : Except APIError FetchSuccess :=
  if !response.ok then
    .error ⟨response.status, response.bodyText⟩
  else if response.bodyText.isEmpty then
    .ok .emptyObject
  else
    .ok (.parsed response.bodyText)

/-! ### Backend: Event Store (spec §4.1, modelled from the spec) -/

/-- Modelled from the spec: the six event kinds of the data model (§3,
"Event"). -/
inductive EventKind where
  | message_in | message_out | agent_switch | tool_call | tool_result | error
deriving DecidableEq, Repr

/-- Modelled from the spec: an immutable event record with a per-conversation
sequence number, a kind, and a payload (§3, "Event"). -/
structure Event where
  seq : Nat
  kind : EventKind
  payload : String
deriving DecidableEq, Repr

/-- Modelled from the spec: the Event Store keeps one append-only log per
conversation id (§4.1, §6). -/
structure EventStore where
  log : String → List Event

/-- Modelled from the spec: the store before any event is appended. -/
def emptyStore : EventStore := ⟨fun _ => []⟩

/-- Modelled from the spec: `append(conversationId, event) -> sequenceNumber`;
the sequence number is assigned at append time and is the successor of the
number of events already logged for that conversation, so numbering starts at
1 and has no gaps (§4.1). -/
def EventStore.append (st : EventStore) (cid : String) (kind : EventKind)
    (payload : String) : EventStore × Nat :=
  let n := (st.log cid).length + 1
  (⟨fun c => if c = cid then st.log cid ++ [⟨n, kind, payload⟩] else st.log c⟩, n)

/-- Modelled from the spec: `listSince(conversationId, sequenceNumber)` returns
the ordered events with larger sequence numbers; it is a pure read (§4.1). -/
def EventStore.listSince (st : EventStore) (cid : String) (n : Nat) : List Event :=
  (st.log cid).filter (fun e => n < e.seq)

/-- Modelled from the spec: `getTimeline(conversationId)` returns the full
ordered event sequence of the conversation (§6). -/
def getTimeline (st : EventStore) (cid : String) : List Event :=
  st.log cid

/-- An append request: conversation id, event kind, payload. -/
def AppendReq : Type := String × EventKind × String

/-- Apply a batch of append requests to a store, in order. -/
def applyAppends (st : EventStore) (reqs : List AppendReq) : EventStore :=
  reqs.foldl (fun s r => (s.append r.1 r.2.1 r.2.2).1) st

/-! ### Backend: Conversation State as a projection of the log (spec §3, §4.2, §4.6) -/

/-- Modelled from the spec: a turn of the history window (§3, "Turn"); the
role is `user` for `message_in` events and `agent` for `message_out`. -/
structure Turn where
  role : String
  content : String
deriving DecidableEq, Repr

/-- Modelled from the spec: the event-derived projection of Conversation
State — the bounded history window and the active agent identifier, the
fields determined by the spec's six event kinds (§3, "Event"; §5 "Conversation
State reflects exactly the events appended up to the point of the last
successful save"). -/
structure ConvProj where
  history : List Turn
  activeAgent : String
deriving DecidableEq, Repr

/-- Modelled from the spec: the history truncation policy — keep the last `n`
turns (§4.2, default 10). -/
def keepLast (n : Nat) (l : List Turn) : List Turn :=
  l.drop (l.length - n)

/-- Modelled from the spec: how one event updates the derived projection:
messages append to the truncated history window, `agent_switch` carries the
target agent in its payload and is the only place the active-agent field
changes (§4.3), and audit-only events leave the projection unchanged. -/
def applyEvent (n : Nat) (s : ConvProj) (e : Event) : ConvProj :=
  match e.kind with
  | .message_in => ⟨keepLast n (s.history ++ [⟨"user", e.payload⟩]), s.activeAgent⟩
  | .message_out => ⟨keepLast n (s.history ++ [⟨"agent", e.payload⟩]), s.activeAgent⟩
  | .agent_switch => ⟨s.history, e.payload⟩
  | .tool_call => s
  | .tool_result => s
  | .error => s

/-- Modelled from the spec: the state a conversation starts in (created on the
first inbound message, handled by an initial default agent). -/
def initProj : ConvProj := ⟨[], "general"⟩

/-- Modelled from the spec: re-deriving Conversation State by replaying an
ordered event sequence from the initial state. -/
def project (n : Nat) (events : List Event) : ConvProj :=
  events.foldl (applyEvent n) initProj

/-- Modelled from the spec: the Orchestrator-visible system state — the event
store plus the persisted per-conversation derived state (§4.6). -/
structure OrchSystem where
  store : EventStore
  conv : String → ConvProj

/-- The system before any turn: empty log, every conversation at its initial
state. -/
def emptySystem : OrchSystem := ⟨emptyStore, fun _ => initProj⟩

/-- Append a list of events for one conversation, in order. -/
def appendEvents (st : EventStore) (cid : String) (evs : List (EventKind × String)) :
    EventStore :=
  evs.foldl (fun s e => (s.append cid e.1 e.2).1) st

/-- Modelled from the spec: committing one turn — the Orchestrator appends the
turn's events and, in the same logical transaction, updates the persisted
state incrementally by folding the projection step over the newly appended
events (§4.1: "Orchestrator updates Conversation State separately, in the same
logical transaction as the append, so the two never diverge for a committed
turn"). -/
def commitTurn (n : Nat) (sys : OrchSystem) (cid : String)
    (evs : List (EventKind × String)) : OrchSystem :=
  let st' := appendEvents sys.store cid evs
  let newEvents := (st'.log cid).drop (sys.store.log cid).length
  ⟨st', fun c => if c = cid then (newEvents.foldl (applyEvent n) (sys.conv c)) else sys.conv c⟩

/-- A whole run: commit a sequence of turns, each naming its conversation and
its events. -/
def runTurns (n : Nat) (sys : OrchSystem) (turns : List (String × List (EventKind × String))) :
    OrchSystem :=
  turns.foldl (fun s t => commitTurn n s t.1 t.2) sys

/-! ### Backend: Workflow Engine (spec §4.4, modelled from the spec) -/

/-- Modelled from the spec: one workflow step — the slot it must fill and a
pure validator over the raw supplied value (§3, "Workflow Definition"). -/
structure WfStep where
  slotName : String
  validator : String → Bool

/-- Modelled from the spec: a workflow definition — an ordered sequence of
steps, the per-step retry maximum (default 3), and the terminal action's tool
name (§3, §4.4). -/
structure WorkflowDef where
  steps : List WfStep
  maxRetries : Nat
  terminalAction : String

/-- Modelled from the spec: reasons a workflow aborts (§4.4). -/
inductive AbortReason where
  | MaxRetriesExceeded
  | ToolFailed (toolName : String)
deriving DecidableEq, Repr

/-- Modelled from the spec: the engine's per-instance control state.
`Collecting` carries the current step index and that step's retry counter;
`Done` and `Aborted` are terminal (§4.4).  The `Validating`, `Executing` and
`Confirming` phases are transient within the processing of one supplied
value, so they appear as the branches of `wfSupply` rather than as resting
states. -/
inductive WfPhase where
  | Collecting (stepIndex : Nat) (retries : Nat)
  | Done
  | Aborted (reason : AbortReason)
deriving DecidableEq, Repr

/-- Modelled from the spec: a workflow instance — its phase and the slots
collected so far (workflow progress is the only per-conversation part, §3). -/
structure WfInstance where
  phase : WfPhase
  slots : List (String × String)
deriving DecidableEq, Repr

/-- Modelled from the spec: the state a fresh workflow instance starts in. -/
def wfStart : WfInstance := ⟨.Collecting 0 0, []⟩

/-- Modelled from the spec: processing one supplied value (§4.4).  In
`Collecting i r` the step's validator runs on the value; on failure the retry
counter increments and beyond the configured maximum the instance aborts with
`MaxRetriesExceeded`, clearing the slots; on success the slot is filled and
the index advances, and after the final step the terminal action runs via the
tool layer (`exec`), reaching `Done` on success or `Aborted` on tool failure,
clearing the slots on either terminal state.  Terminal phases absorb further
input. -/
def wfSupply (wf : WorkflowDef) (exec : String → Bool) (inst : WfInstance)
    (value : String) : WfInstance :=
  match inst.phase with
  | .Collecting i r =>
    match wf.steps[i]? with
    | none => inst
    | some step =>
      if step.validator value then
        let slots' := inst.slots ++ [(step.slotName, value)]
        if i + 1 < wf.steps.length then
          ⟨.Collecting (i + 1) 0, slots'⟩
        else if exec wf.terminalAction then
          ⟨.Done, []⟩
        else
          ⟨.Aborted (.ToolFailed wf.terminalAction), []⟩
      else if wf.maxRetries < r + 1 then
        ⟨.Aborted .MaxRetriesExceeded, []⟩
      else
        ⟨.Collecting i (r + 1), inst.slots⟩
  | .Done => inst
  | .Aborted _ => inst

/-- Run the engine over a list of supplied values, in order. -/
def wfRun (wf : WorkflowDef) (exec : String → Bool) (inst : WfInstance)
    (values : List String) : WfInstance :=
  values.foldl (wfSupply wf exec) inst

/-! ### Backend: Tool Executor (spec §4.5, modelled from the spec) -/

/-- Modelled from the spec: a tool definition — name, a schema check
returning the violated field when the arguments are invalid, and the
execution handler, which may have side effects on an ambient state `σ`
(§3, "Tool Definition"). -/
structure ToolDef (σ : Type) where
  name : String
  schemaCheck : List (String × String) → Option String
  handler : List (String × String) → σ → String × σ

/-- Modelled from the spec: the agent-definition fields the Tool Executor
consults — the agent's name and its declared tool list (§3, "Agent
Definition"). -/
structure AgentDef where
  name : String
  tools : List String
deriving DecidableEq, Repr

/-- Modelled from the spec: the Tool Executor's error taxonomy (§4.5, §7). -/
inductive ToolError where
  | UnknownTool
  | Unauthorized
  | InvalidArguments (field : String)
deriving DecidableEq, Repr

/-- Modelled from the spec: `invoke(toolName, arguments, callerAgent)` — the
steps run in order: (1) resolve the tool, failing with `UnknownTool`; (2)
check the caller's declared tool list, failing with `Unauthorized`; (3)
validate the arguments against the schema, failing with `InvalidArguments`
and the violated field; (4) execute the handler (§4.5).  The ambient state
`σ` is returned so that handler side effects are observable. -/
def invoke {σ : Type} (registry : List (ToolDef σ)) (callerAgent : AgentDef)
    (toolName : String) (args : List (String × String)) (s : σ) :
    Except ToolError String × σ :=
  match registry.find? (fun t => t.name == toolName) with
  | none => (.error .UnknownTool, s)
  | some t =>
    if callerAgent.tools.contains toolName then
      match t.schemaCheck args with
      | some field => (.error (.InvalidArguments field), s)
      | none =>
        let r := t.handler args s
        (.ok r.1, r.2)
    else
      (.error .Unauthorized, s)

/-! ### Backend: conversation lifecycle and escalation latch (spec §3, §4.2; status union from the frontend type in src/unnamed/part_003) -/

/-- The lifecycle status union, embedded from the `Conversation` interface in
the frontend types (`status: 'active' | 'ended' | 'escalated'`). -/
inductive ConvStatus where
  | active | ended | escalated
deriving DecidableEq, Repr

/-- Modelled from the spec: the lifecycle-relevant part of a conversation
record — its status and the escalation flag (§3, "Conversation"). -/
structure ConvLife where
  status : ConvStatus
  escalationFlag : Bool
deriving DecidableEq, Repr

/-- Modelled from the spec: the actions that can touch the lifecycle.
`escalate` is set by Agent Router or Workflow Engine; `humanResume` is the
external operator action that clears an escalation and resumes automated
handling; `endConv` ends the conversation; `turn` is an ordinary processed
turn (§3, §4.2). -/
inductive LifeAction where
  | escalate
  | humanResume
  | endConv
  | turn
deriving DecidableEq, Repr

/-- Modelled from the spec: the lifecycle transition function.  Escalation
latches the flag and moves an active conversation to `escalated`; only the
operator's `humanResume` clears the latch, moving `escalated` back to
`active`; ending is terminal; an ordinary turn changes nothing (§3, §4.2). -/
def lifeStep (st : ConvLife) (a : LifeAction) : ConvLife :=
  match a with
  | .escalate => if st.status = .active then ⟨.escalated, true⟩ else st
  | .humanResume => if st.status = .escalated then ⟨.active, false⟩ else st
  | .endConv => if st.status = .ended then st else ⟨.ended, st.escalationFlag⟩
  | .turn => st

/-- Modelled from the spec: the Orchestrator's agent choice for a turn — while
the escalation flag is set every turn is routed to the human-handoff agent,
otherwise the Agent Router's choice stands (§4.2). -/
def chooseAgent (st : ConvLife) (routerChoice : String) : String :=
  if st.escalationFlag then "human_handoff" else routerChoice

/-! ### Backend: Agent Router (spec §4.3, modelled from the spec) -/

/-- Modelled from the spec: the inbound signal the transfer predicates see —
detected intent, a confidence score in the range 0–1, and the explicit
error/fallback signal (§4.3). -/
structure RouterSignal where
  intent : String
  confidence : ℚ
  errorSignal : Bool

/-- Modelled from the spec: one transfer predicate of an agent definition —
a boolean condition over the signal and the target agent it yields (§3,
"Agent Definition"; §4.3). -/
structure TransferRule where
  pred : RouterSignal → Bool
  target : String

/-- Modelled from the spec: the router's static configuration — the known
agent names and the configured default agent used as the `UnknownAgent`
fallback (§4.3). -/
structure RouterConfig where
  knownAgents : List String
  defaultAgent : String
deriving DecidableEq, Repr

/-- Modelled from the spec: the router's outcome — the next active agent and
an optional recoverable `UnknownAgent` warning naming the misconfigured
target (§4.3, §7). -/
structure RouteResult where
  nextAgent : String
  unknownAgentWarning : Option String
deriving DecidableEq, Repr

/-- Modelled from the spec: evaluate the active agent's transfer predicates
in declaration order; the first match yields the target; no match leaves the
active agent unchanged; an unknown target falls back to the default agent
with a recoverable warning (§4.3). -/
def route (cfg : RouterConfig) (activeAgent : String) (rules : List TransferRule)
    (sig : RouterSignal) : RouteResult :=
  match rules.find? (fun r => r.pred sig) with
  | none => ⟨activeAgent, none⟩
  | some r =>
    if cfg.knownAgents.contains r.target then ⟨r.target, none⟩
    else ⟨cfg.defaultAgent, some r.target⟩

/-! ### Backend: Orchestrator turn commit and timeout cancellation (spec §4.6, §5, modelled from the spec) -/

/-- Modelled from the spec: what one attempted turn would do if committed —
whether the end-to-end turn timeout fired, the conversation record the turn
would persist, the events it would append, and the outbound messages (§4.6,
§5 "Cancellation"). -/
structure TurnAttempt where
  timedOut : Bool
  newConv : ConvProj
  events : List (EventKind × String)
  outbound : List String

/-- Modelled from the spec: driving one inbound turn to completion.  When the
turn times out the Orchestrator appends an `error` event and returns a
best-effort fallback message, leaving every conversation record untouched
(the turn is not committed); otherwise the events are appended and the
conversation record is overwritten whole, in the same logical transaction
(§4.6, §5). -/
def runTurn (sys : OrchSystem) (cid : String) (att : TurnAttempt)
    (fallbackMsg : String) : OrchSystem × List String :=
  if att.timedOut then
    (⟨appendEvents sys.store cid [(.error, "turn timeout")], sys.conv⟩, [fallbackMsg])
  else
    (⟨appendEvents sys.store cid att.events,
      fun c => if c = cid then att.newConv else sys.conv c⟩, att.outbound)

/-- The sequence-number invariant: a conversation's log carries exactly the
numbers `1, 2, …, length` in order. -/
def SeqInv (st : EventStore) : Prop :=
  ∀ cid, ((st.log cid).map Event.seq) = List.range' 1 (st.log cid).length

/-- The projection invariant: every persisted conversation record equals the
replay of that conversation's full event log. -/
def ProjInv (n : Nat) (sys : OrchSystem) : Prop :=
  ∀ c, sys.conv c = project n (sys.store.log c)

/-! ### Theorems: frontend helpers -/

/-- C9: `truncate(s, n)` returns `s` unchanged when `s` fits in `n`
characters, and otherwise returns the first `n` characters of `s` followed by
`"..."`, so the result has exactly `n + 3` characters and may exceed the
requested length `n`. -/
theorem truncate_spec (s : List Char) (n : Nat) :
    (s.length ≤ n → truncate s n = s) ∧
    (n < s.length →
      truncate s n = s.take n ++ ['.', '.', '.'] ∧
      (truncate s n).length = n + 3) := by
  constructor
  · intro h
    simp [truncate, h]
  · intro h
    have h' : ¬ s.length ≤ n := not_le.mpr h
    refine ⟨by simp [truncate, h'], ?_⟩
    simp [truncate, h', List.length_take, Nat.min_eq_left (le_of_lt h)]

/-- Witness for C9 at concrete inputs: a short string passes through, a long
one gains exactly three characters. -/
theorem truncate_spec_witness :
    truncate "hi".toList 5 = "hi".toList ∧
    (truncate "hello".toList 3).length = 3 + 3 :=
  ⟨(truncate_spec "hi".toList 5).1 (by decide),
   ((truncate_spec "hello".toList 3).2 (by decide)).2⟩

/-- C8: a non-ok response makes `fetchAPI` throw an `APIError` carrying the
status code and the body text; an ok response with an empty body returns the
empty object instead of parsing. -/
theorem fetchAPI_spec (r : HttpResponse) :
    (r.ok = false → fetchAPI r = .error ⟨r.status, r.bodyText⟩) ∧
    (r.ok = true → r.bodyText = "" → fetchAPI r = .ok .emptyObject) := by
  constructor
  · intro h
    simp [fetchAPI, h]
  · intro h h'
    simp [fetchAPI, h, h', String.isEmpty_iff]

/-- Witness for C8 at concrete responses: a 404 throws, an empty 200 body
yields the empty object. -/
theorem fetchAPI_spec_witness :
    fetchAPI ⟨false, 404, "Not Found"⟩ = .error ⟨404, "Not Found"⟩ ∧
    fetchAPI ⟨true, 200, ""⟩ = .ok .emptyObject :=
  ⟨(fetchAPI_spec ⟨false, 404, "Not Found"⟩).1 rfl,
   (fetchAPI_spec ⟨true, 200, ""⟩).2 rfl rfl⟩

/-- C10 counterexample: the single-space input is a non-empty string, yet
`getInitials` returns the empty string for it (splitting on spaces yields only
empty words), so the result is not always non-empty. -/
theorem getInitials_counterexample :
    getInitials " ".toList = [] ∧ " ".toList ≠ [] := by
  constructor <;> decide

/-- `jsSplit` never returns an empty list of parts. -/
theorem jsSplit_ne_nil (sep : Char) (l : List Char) : jsSplit sep l ≠ [] := by
  cases l with
  | nil => simp [jsSplit]
  | cons c rest =>
    simp only [jsSplit]
    cases jsSplit sep rest with
    | nil => simp
    | cons w ws =>
      by_cases h : c = sep <;> simp [h]

/-- If every part produced by `jsSplit` is empty, the input consisted only of
separator characters. -/
theorem jsSplit_all_empty (sep : Char) :
    ∀ l : List Char, (∀ w ∈ jsSplit sep l, w = []) → ∀ c ∈ l, c = sep := by
  intro l
  induction l with
  | nil => intro _ c hc; cases hc
  | cons a rest ih =>
    intro h c hc
    rcases hw : jsSplit sep rest with _ | ⟨w, ws⟩
    · exact absurd hw (jsSplit_ne_nil sep rest)
    · by_cases ha : a = sep
      · have hrest : ∀ w' ∈ jsSplit sep rest, w' = [] := by
          intro w' hw'
          apply h
          simp only [jsSplit, hw, ha, if_pos rfl]
          simp [hw ▸ hw']
        cases hc with
        | head => exact ha
        | tail _ hc => exact ih hrest c hc
      · exfalso
        have : (a :: w) ∈ jsSplit sep (a :: rest) := by
          simp only [jsSplit, hw, ha, if_neg ha]
          simp
        exact absurd (h _ this) (by simp)

/-- Branch equation: a phone-like non-empty input takes the last-two-characters
path. -/
theorem getInitials_cons_phone (a : Char) (rest : List Char)
    (hp : ((a :: rest : List Char).head? = some '+') ∨ isAllDigits (a :: rest) = true) :
    getInitials (a :: rest) = (jsSliceLast2 (a :: rest)).map Char.toUpper := by
  rcases hp with hp | hp
  · have ha : a = '+' := by simpa using hp
    simp [getInitials, ha]
  · simp [getInitials, hp]

/-- Branch equation: a non-phone non-empty input takes the word-initials
path. -/
theorem getInitials_cons_words (a : Char) (rest : List Char)
    (h1 : ¬ ((a :: rest : List Char).head? = some '+'))
    (h2 : isAllDigits (a :: rest) = false) :
    getInitials (a :: rest) =
      ((((jsSplit ' ' (a :: rest)).map (List.take 1)).flatten).take 2).map Char.toUpper := by
  have ha : ¬ (a = '+') := by simpa using h1
  simp [getInitials, ha, h2]

/-- C10 (amended): `getInitials` returns a string of at most 2 characters:
the empty string maps to `"?"`, a phone-like input (leading `'+'` or all
digits) maps to its last two characters uppercased, and any other input maps
to the first letters of its first words, uppercased and cut to 2 characters —
the result is non-empty whenever such an input contains a character other
than a space, but a non-phone input consisting only of spaces yields the
empty string. -/
theorem getInitials_spec (input : List Char) :
    (getInitials input).length ≤ 2 ∧
    (input = [] → getInitials input = ['?']) ∧
    (input ≠ [] → (input.head? = some '+' ∨ isAllDigits input = true) →
      getInitials input = (jsSliceLast2 input).map Char.toUpper) ∧
    (input ≠ [] → input.head? ≠ some '+' → isAllDigits input = false →
      getInitials input =
        ((((jsSplit ' ' input).map (List.take 1)).flatten).take 2).map Char.toUpper) ∧
    (input.head? ≠ some '+' → isAllDigits input = false →
      (∃ c ∈ input, c ≠ ' ') → getInitials input ≠ []) := by
  cases input with
  | nil =>
    refine ⟨by decide, fun _ => rfl, fun h => absurd rfl h, fun h => absurd rfl h, ?_⟩
    intro _ _ hc
    rcases hc with ⟨c, hc, _⟩
    cases hc
  | cons a rest =>
    have hlen : (getInitials (a :: rest)).length ≤ 2 := by
      by_cases hp : ((a :: rest : List Char).head? = some '+') ∨ isAllDigits (a :: rest) = true
      · rw [getInitials_cons_phone a rest hp]
        simp [jsSliceLast2]
        omega
      · push_neg at hp
        rw [getInitials_cons_words a rest hp.1 (by simpa using hp.2)]
        simp
    refine ⟨hlen, fun h => absurd h (by simp), fun _ hp => getInitials_cons_phone a rest hp,
      fun _ h1 h2 => getInitials_cons_words a rest h1 h2, ?_⟩
    intro h1 h2 hc hnil
    rcases hc with ⟨c, hc, hcs⟩
    rw [getInitials_cons_words a rest h1 h2] at hnil
    have htake : ((((jsSplit ' ' (a :: rest)).map (List.take 1)).flatten).take 2) = [] := by
      cases hstep : (((jsSplit ' ' (a :: rest)).map (List.take 1)).flatten).take 2 with
      | nil => rfl
      | cons x xs => rw [hstep] at hnil; simp at hnil
    have hflat : (((jsSplit ' ' (a :: rest)).map (List.take 1)).flatten) = [] := by
      rcases List.take_eq_nil_iff.mp htake with h | h
      · exact absurd h (by decide)
      · exact h
    have hparts : ∀ w ∈ jsSplit ' ' (a :: rest), w = [] := by
      intro w hw
      have hmem : w.take 1 ∈ (jsSplit ' ' (a :: rest)).map (List.take 1) :=
        List.mem_map_of_mem _ hw
      have hw1 : w.take 1 = [] :=
        List.flatten_eq_nil_iff.mp hflat _ hmem
      rcases List.take_eq_nil_iff.mp hw1 with h | h
      · exact absurd h (by decide)
      · exact h
    have : c = ' ' := jsSplit_all_empty ' ' (a :: rest) hparts c hc
    exact hcs this

/-- Witness for C10 at concrete inputs: each branch of the amended statement
instantiated and its hypotheses discharged. -/
theorem getInitials_spec_witness :
    getInitials [] = ['?'] ∧
    getInitials "+1234567890".toList = (jsSliceLast2 "+1234567890".toList).map Char.toUpper ∧
    getInitials "ada lovelace".toList = "AL".toList ∧
    getInitials " x".toList ≠ [] :=
  ⟨(getInitials_spec []).2.1 rfl,
   (getInitials_spec "+1234567890".toList).2.2.1 (by decide) (Or.inl (by decide)),
   ((getInitials_spec "ada lovelace".toList).2.2.2.1 (by decide) (by decide)
     (by decide)).trans (by decide),
   (getInitials_spec " x".toList).2.2.2.2 (by decide) (by decide)
     ⟨'x', by decide, by decide⟩⟩

/-! ### Theorems: Event Store sequence numbers (C1) -/

/-- One append either leaves a conversation's log untouched (another
conversation's append) or extends it by exactly the new event; existing
events are never edited or removed. -/
theorem append_log_extends (st : EventStore) (c : String) (k : EventKind)
    (p : String) (c' : String) :
    ∃ t, (st.append c k p).1.log c' = st.log c' ++ t := by
  by_cases h : c' = c
  · subst h
    refine ⟨[Event.mk ((st.log c').length + 1) k p], ?_⟩
    simp [EventStore.append]
  · refine ⟨[], ?_⟩
    simp [EventStore.append, h]

/-- A single append preserves the sequence-number invariant. -/
theorem append_preserves_seqInv (st : EventStore) (c : String) (k : EventKind)
    (p : String) (h : SeqInv st) : SeqInv (st.append c k p).1 := by
  intro cid
  by_cases hc : cid = c
  · subst hc
    have hlog : (st.append cid k p).1.log cid
        = st.log cid ++ [Event.mk ((st.log cid).length + 1) k p] := by
      simp [EventStore.append]
    rw [hlog, List.map_append, h cid, List.length_append]
    simp only [List.map_cons, List.map_nil, List.length_cons, List.length_nil, Nat.zero_add]
    rw [List.range'_1_concat, Nat.add_comm 1 (st.log cid).length]
  · have hlog : (st.append c k p).1.log cid = st.log cid := by
      simp [EventStore.append, hc]
    rw [hlog]
    exact h cid

/-- A batch of appends preserves the sequence-number invariant. -/
theorem applyAppends_preserves_seqInv (reqs : List AppendReq) (st : EventStore)
    (h : SeqInv st) : SeqInv (applyAppends st reqs) := by
  induction reqs generalizing st with
  | nil => exact h
  | cons r rest ih =>
    exact ih _ (append_preserves_seqInv st r.1 r.2.1 r.2.2 h)

/-- C1: starting from the empty store, after any sequence of appends every
conversation's event log carries the sequence numbers `1, 2, …, length` —
strictly increasing with no gaps — and an append never edits or removes
existing events (it only ever extends a log), `append` being the only
store-producing operation of the Event Store interface. -/
theorem eventStore_seq_spec (reqs : List AppendReq) (cid : String) :
    (((applyAppends emptyStore reqs).log cid).map Event.seq
      = List.range' 1 ((applyAppends emptyStore reqs).log cid).length) ∧
    (∀ (st : EventStore) (c : String) (k : EventKind) (p : String) (c' : String),
      ∃ t, (st.append c k p).1.log c' = st.log c' ++ t) := by
  constructor
  · exact applyAppends_preserves_seqInv reqs emptyStore (fun _ => rfl) cid
  · exact append_log_extends

/-! ### Theorems: Conversation State round trip (C2) -/

/-- Appending events for one conversation leaves every other conversation's
log untouched. -/
theorem appendEvents_log_other (st : EventStore) (cid : String)
    (evs : List (EventKind × String)) (c : String) (h : c ≠ cid) :
    (appendEvents st cid evs).log c = st.log c := by
  induction evs generalizing st with
  | nil => rfl
  | cons e rest ih =>
    show (appendEvents ((st.append cid e.1 e.2).1) cid rest).log c = st.log c
    rw [ih]
    simp [EventStore.append, h]

/-- Appending events for a conversation only ever extends its log. -/
theorem appendEvents_log_self (st : EventStore) (cid : String)
    (evs : List (EventKind × String)) :
    ∃ d, (appendEvents st cid evs).log cid = st.log cid ++ d := by
  induction evs generalizing st with
  | nil => exact ⟨[], by simp [appendEvents]⟩
  | cons e rest ih =>
    rcases ih ((st.append cid e.1 e.2).1) with ⟨d', hd'⟩
    refine ⟨Event.mk ((st.log cid).length + 1) e.1 e.2 :: d', ?_⟩
    show (appendEvents ((st.append cid e.1 e.2).1) cid rest).log cid = _
    rw [hd']
    have hone : ((st.append cid e.1 e.2).1).log cid
        = st.log cid ++ [Event.mk ((st.log cid).length + 1) e.1 e.2] := by
      simp [EventStore.append]
    rw [hone, List.append_assoc]
    rfl

/-- Committing one turn preserves the projection invariant: the incremental
in-transaction state update agrees with a full replay of the extended log. -/
theorem commitTurn_preserves_projInv (n : Nat) (sys : OrchSystem) (cid : String)
    (evs : List (EventKind × String)) (h : ProjInv n sys) :
    ProjInv n (commitTurn n sys cid evs) := by
  intro c
  by_cases hc : c = cid
  · subst hc
    rcases appendEvents_log_self sys.store c evs with ⟨d, hd⟩
    have hconv : (commitTurn n sys c evs).conv c
        = (((appendEvents sys.store c evs).log c).drop
            (sys.store.log c).length).foldl (applyEvent n) (sys.conv c) := by
      simp [commitTurn]
    have hstore : (commitTurn n sys c evs).store = appendEvents sys.store c evs := rfl
    rw [hstore, hconv, hd, List.drop_left, h c, project, project, List.foldl_append]
  · have hconv : (commitTurn n sys cid evs).conv c = sys.conv c := by
      simp [commitTurn, hc]
    have hstore : (commitTurn n sys cid evs).store = appendEvents sys.store cid evs := rfl
    rw [hstore, hconv, appendEvents_log_other sys.store cid evs c hc]
    exact h c

/-- Running any sequence of committed turns preserves the projection
invariant. -/
theorem runTurns_projInv (n : Nat) (turns : List (String × List (EventKind × String)))
    (sys : OrchSystem) (h : ProjInv n sys) : ProjInv n (runTurns n sys turns) := by
  induction turns generalizing sys with
  | nil => exact h
  | cons t rest ih => exact ih _ (commitTurn_preserves_projInv n sys t.1 t.2 h)

/-- C2: after any run of committed turns starting from the empty system,
replaying the full ordered event sequence returned by `getTimeline` and
re-deriving Conversation State from it yields exactly the persisted
Conversation State. -/
theorem conversationState_roundTrip (n : Nat)
    (turns : List (String × List (EventKind × String))) (cid : String) :
    (runTurns n emptySystem turns).conv cid
      = project n (getTimeline (runTurns n emptySystem turns).store cid) :=
  runTurns_projInv n turns emptySystem (fun _ => rfl) cid

/-! ### Theorems: Workflow Engine terminal behaviour (C3) -/

/-- Running the engine over appended value lists composes. -/
theorem wfRun_append (wf : WorkflowDef) (exec : String → Bool) (inst : WfInstance)
    (l₁ l₂ : List String) :
    wfRun wf exec inst (l₁ ++ l₂) = wfRun wf exec (wfRun wf exec inst l₁) l₂ :=
  List.foldl_append _ _ _ _

/-- An aborted instance absorbs any further supplied values. -/
theorem wfRun_aborted_absorb (wf : WorkflowDef) (exec : String → Bool)
    (reason : AbortReason) (slots : List (String × String)) (values : List String) :
    wfRun wf exec ⟨.Aborted reason, slots⟩ values = ⟨.Aborted reason, slots⟩ := by
  induction values with
  | nil => rfl
  | cons v rest ih => exact ih

/-- Supplying valid values for every remaining step, in order, drives the
engine from any `Collecting` state to `Done` with the slots cleared. -/
theorem wfRun_valid (wf : WorkflowDef) (exec : String → Bool)
    (hexec : exec wf.terminalAction = true) :
    ∀ (values : List String) (i r : Nat) (slots : List (String × String)),
      i + values.length = wf.steps.length →
      i < wf.steps.length →
      (∀ (j : Nat) (v' : String), values[j]? = some v' →
        ∀ step, wf.steps[i + j]? = some step → step.validator v' = true) →
      wfRun wf exec ⟨.Collecting i r, slots⟩ values = ⟨.Done, []⟩ := by
  intro values
  induction values with
  | nil =>
    intro i r slots hlen hi hval
    exfalso
    simp at hlen
    omega
  | cons v rest ih =>
    intro i r slots hlen hi hval
    have hi0 : wf.steps[i]? = some (wf.steps[i]) := List.getElem?_eq_getElem hi
    have hv : (wf.steps[i]).validator v = true := by
      apply hval 0 v (by simp)
      simp only [Nat.add_zero]
      exact hi0
    show wfRun wf exec (wfSupply wf exec ⟨.Collecting i r, slots⟩ v) rest = ⟨.Done, []⟩
    have hsup : wfSupply wf exec ⟨.Collecting i r, slots⟩ v
        = if i + 1 < wf.steps.length
          then ⟨.Collecting (i + 1) 0, slots ++ [(wf.steps[i].slotName, v)]⟩
          else ⟨.Done, []⟩ := by
      simp [wfSupply, hi0, hv, hexec]
    rw [hsup]
    by_cases hlt : i + 1 < wf.steps.length
    · rw [if_pos hlt]
      have hlen' : (i + 1) + rest.length = wf.steps.length := by
        simp [List.length_cons] at hlen
        omega
      apply ih (i + 1) 0 _ hlen' hlt
      intro j v' hjv step hstep
      have h1 : (v :: rest)[j + 1]? = some v' := by simpa using hjv
      have h2 : i + (j + 1) = i + 1 + j := by omega
      exact hval (j + 1) v' h1 step (by rw [h2]; exact hstep)
    · rw [if_neg hlt]
      have hrest : rest = [] := by
        have hl : rest.length = 0 := by
          simp [List.length_cons] at hlen
          omega
        exact List.eq_nil_of_length_eq_zero hl
      subst hrest
      rfl

/-- Repeatedly supplying an invalid value for the current step keeps the
engine at the same step with an incrementing retry counter until the
configured maximum is exceeded, at which point it aborts with
`MaxRetriesExceeded` and clears the slots. -/
theorem wfRun_invalid_aux (wf : WorkflowDef) (exec : String → Bool) (v : String)
    (step : WfStep) (hstep : wf.steps[0]? = some step)
    (hv : step.validator v = false) :
    ∀ (m r : Nat) (slots : List (String × String)), r ≤ wf.maxRetries →
      wfRun wf exec ⟨.Collecting 0 r, slots⟩ (List.replicate m v)
        = if wf.maxRetries < r + m then ⟨.Aborted .MaxRetriesExceeded, []⟩
          else ⟨.Collecting 0 (r + m), slots⟩ := by
  intro m
  induction m with
  | zero =>
    intro r slots hr
    rw [if_neg (by omega)]
    rfl
  | succ m ih =>
    intro r slots hr
    show wfRun wf exec (wfSupply wf exec ⟨.Collecting 0 r, slots⟩ v)
        (List.replicate m v) = _
    have hsup : wfSupply wf exec ⟨.Collecting 0 r, slots⟩ v
        = if wf.maxRetries < r + 1 then ⟨.Aborted .MaxRetriesExceeded, []⟩
          else ⟨.Collecting 0 (r + 1), slots⟩ := by
      simp [wfSupply, hstep, hv]
    rw [hsup]
    by_cases habort : wf.maxRetries < r + 1
    · rw [if_pos habort, wfRun_aborted_absorb, if_pos (by omega)]
    · rw [if_neg habort, ih (r + 1) slots (by omega)]
      have h2 : r + 1 + m = r + (m + 1) := by omega
      rw [h2]

/-- C3: for a workflow with at least one step, supplying a value that passes
the step validator for every step, in order, drives the state machine to
`Done` and clears the slots (given the terminal action succeeds); supplying a
value that fails validation for the first step more than the configured retry
maximum drives it to `Aborted` with `MaxRetriesExceeded`, also clearing the
slots. -/
theorem workflowEngine_terminal (wf : WorkflowDef) (exec : String → Bool)
    (hne : 0 < wf.steps.length) :
    (∀ values : List String, values.length = wf.steps.length →
      exec wf.terminalAction = true →
      (∀ (j : Nat) (v' : String), values[j]? = some v' →
        ∀ step, wf.steps[j]? = some step → step.validator v' = true) →
      wfRun wf exec wfStart values = ⟨.Done, []⟩) ∧
    (∀ (v : String) (step : WfStep) (k : Nat), wf.steps[0]? = some step →
      step.validator v = false → wf.maxRetries < k →
      wfRun wf exec wfStart (List.replicate k v) = ⟨.Aborted .MaxRetriesExceeded, []⟩) := by
  constructor
  · intro values hlen hexec hval
    exact wfRun_valid wf exec hexec values 0 0 [] (by omega) hne
      (fun j v' hjv step hstep => hval j v' hjv step (by simpa using hstep))
  · intro v step k hstep hv hk
    have hsplit : List.replicate k v
        = List.replicate (wf.maxRetries + 1) v
          ++ List.replicate (k - (wf.maxRetries + 1)) v := by
      rw [← List.replicate_add]
      congr 1
      omega
    have h1 : wfRun wf exec wfStart (List.replicate (wf.maxRetries + 1) v)
        = ⟨.Aborted .MaxRetriesExceeded, []⟩ := by
      rw [wfStart, wfRun_invalid_aux wf exec v step hstep hv (wf.maxRetries + 1) 0 []
        (Nat.zero_le _), if_pos (by omega)]
    rw [hsplit, wfRun_append, h1, wfRun_aborted_absorb]

/-- Witness for C3 on the spec's `book_appointment` scenario: two steps with
non-empty validators reach `Done` with cleared slots on `"2025-03-01"` then
`"14:00"`, and four empty supplies abort with `MaxRetriesExceeded`. -/
theorem workflowEngine_terminal_witness :
    wfRun ⟨[⟨"date", fun s => !s.isEmpty⟩, ⟨"time", fun s => !s.isEmpty⟩], 3,
        "create_booking"⟩ (fun _ => true) wfStart ["2025-03-01", "14:00"]
      = ⟨.Done, []⟩ ∧
    wfRun ⟨[⟨"date", fun s => !s.isEmpty⟩, ⟨"time", fun s => !s.isEmpty⟩], 3,
        "create_booking"⟩ (fun _ => true) wfStart (List.replicate 4 "")
      = ⟨.Aborted .MaxRetriesExceeded, []⟩ := by
  constructor
  · apply (workflowEngine_terminal
      ⟨[⟨"date", fun s => !s.isEmpty⟩, ⟨"time", fun s => !s.isEmpty⟩], 3,
        "create_booking"⟩ (fun _ => true) (by decide)).1 ["2025-03-01", "14:00"] rfl rfl
    intro j v' hjv step hstep
    match j with
    | 0 =>
      simp at hjv hstep
      rw [← hjv, ← hstep]
      decide
    | 1 =>
      simp at hjv hstep
      rw [← hjv, ← hstep]
      decide
    | (n + 2) =>
      simp at hjv
  · exact (workflowEngine_terminal
      ⟨[⟨"date", fun s => !s.isEmpty⟩, ⟨"time", fun s => !s.isEmpty⟩], 3,
        "create_booking"⟩ (fun _ => true) (by decide)).2 ""
      ⟨"date", fun s => !s.isEmpty⟩ 4 rfl (by decide) (by decide)

/-! ### Theorems: Tool Executor authorization (C4) -/

/-- C4 counterexample to the claim as stated: with an empty tool registry the
requested tool name is not in the calling agent's declared list, yet `invoke`
returns `UnknownTool` — resolution runs before the authorization check — so
the result is not the `Unauthorized` error. -/
theorem invoke_unknown_counterexample :
    invoke (σ := Nat) [] ⟨"support", []⟩ "create_booking" [] 0
      = (.error .UnknownTool, 0) ∧
    (Except.error ToolError.UnknownTool : Except ToolError String)
      ≠ .error .Unauthorized := by
  refine ⟨rfl, fun h => ?_⟩
  exact absurd (Except.error.inj h) (by decide)

/-- C4 (amended): whenever the requested tool name resolves in the registry
and the calling agent's declared tool list does not contain it, `invoke`
returns the `Unauthorized` error and the ambient state is returned unchanged
— the tool's execution handler is never run, so no handler side effects occur
before the authorization check. -/
theorem invoke_unauthorized {σ : Type} (registry : List (ToolDef σ))
    (callerAgent : AgentDef) (toolName : String) (args : List (String × String))
    (s : σ) (t : ToolDef σ)
    (hres : registry.find? (fun t => t.name == toolName) = some t)
    (hauth : callerAgent.tools.contains toolName = false) :
    invoke registry callerAgent toolName args s = (.error .Unauthorized, s) := by
  have hmem : toolName ∉ callerAgent.tools := by simpa using hauth
  simp [invoke, hres, hmem]

/-- Witness for C4 (amended): a registry whose handler would mutate the
state; an agent without the tool in its list gets `Unauthorized` and the
state stays `0`. -/
theorem invoke_unauthorized_witness :
    invoke [ToolDef.mk "create_booking" (fun _ => none) (fun _ n => ("done", n + 1))]
      ⟨"support", ["lookup_order"]⟩ "create_booking" [] 0
      = (.error .Unauthorized, 0) :=
  invoke_unauthorized
    [ToolDef.mk "create_booking" (fun _ => none) (fun _ n => ("done", n + 1))]
    ⟨"support", ["lookup_order"]⟩ "create_booking" [] 0
    (ToolDef.mk "create_booking" (fun _ => none) (fun _ n => ("done", n + 1)))
    rfl rfl

/-! ### Theorems: conversation lifecycle and escalation latch (C5) -/

/-- C5: every lifecycle status is one of `active`, `escalated`, `ended`;
transitions are monotonic — a step either keeps the status, escalates an
active conversation, ends it, or is the single allowed human-resume
`escalated → active` — `ended` is terminal; the escalation flag is a one-way
latch under every action except the external operator's resume; while the
flag is set every turn is routed to the human-handoff agent; and resuming is
only possible from the `escalated` status, so it can happen at most once per
escalation. -/
theorem lifecycle_spec :
    (∀ s : ConvStatus, s = .active ∨ s = .escalated ∨ s = .ended) ∧
    (∀ (st : ConvLife) (a : LifeAction),
      (lifeStep st a).status = st.status ∨
      (st.status = .active ∧ (lifeStep st a).status = .escalated ∧ a = .escalate) ∨
      (st.status = .escalated ∧ (lifeStep st a).status = .active ∧ a = .humanResume) ∨
      ((lifeStep st a).status = .ended ∧ a = .endConv)) ∧
    (∀ (st : ConvLife) (a : LifeAction), st.status = .ended → lifeStep st a = st) ∧
    (∀ (st : ConvLife) (a : LifeAction), st.escalationFlag = true →
      a ≠ .humanResume → (lifeStep st a).escalationFlag = true) ∧
    (∀ (st : ConvLife) (routerChoice : String), st.escalationFlag = true →
      chooseAgent st routerChoice = "human_handoff") ∧
    (∀ st : ConvLife, st.status ≠ .escalated → lifeStep st .humanResume = st) := by
  refine ⟨?_, ?_, ?_, ?_, ?_, ?_⟩
  · intro s
    cases s <;> simp
  · intro st a
    rcases st with ⟨s, f⟩
    cases s <;> cases a <;> simp [lifeStep]
  · intro st a h
    rcases st with ⟨s, f⟩
    cases s <;> cases a <;> simp_all [lifeStep]
  · intro st a h hne
    rcases st with ⟨s, f⟩
    cases s <;> cases a <;> simp_all [lifeStep]
  · intro st rc h
    simp [chooseAgent, h]
  · intro st h
    rcases st with ⟨s, f⟩
    cases s <;> simp_all [lifeStep]

/-- Witness for C5 at concrete states: the latch survives an ordinary turn
while escalated, an escalated conversation's turn routes to human handoff,
and an ended conversation cannot be escalated. -/
theorem lifecycle_spec_witness :
    (lifeStep ⟨.escalated, true⟩ .turn).escalationFlag = true ∧
    chooseAgent ⟨.escalated, true⟩ "general" = "human_handoff" ∧
    lifeStep ⟨.ended, false⟩ .escalate = ⟨.ended, false⟩ :=
  ⟨lifecycle_spec.2.2.2.1 ⟨.escalated, true⟩ .turn rfl (by decide),
   lifecycle_spec.2.2.2.2.1 ⟨.escalated, true⟩ "general" rfl,
   lifecycle_spec.2.2.1 ⟨.ended, false⟩ .escalate rfl⟩

/-! ### Theorems: Agent Router first-match routing (C6) -/

/-- `find?` returns the first element satisfying the predicate when
everything before it fails the predicate. -/
theorem find?_first_match {α : Type} (p : α → Bool) :
    ∀ (pre : List α) (r : α) (post : List α),
      (∀ x ∈ pre, p x = false) → p r = true →
      List.find? p (pre ++ r :: post) = some r := by
  intro pre
  induction pre with
  | nil =>
    intro r post _ hr
    rw [List.nil_append, List.find?_cons_of_pos _ hr]
  | cons a rest ih =>
    intro r post hpre hr
    have ha : p a = false := hpre a (List.mem_cons_self a rest)
    show List.find? p (a :: (rest ++ r :: post)) = some r
    rw [List.find?_cons_of_neg _ (by simp [ha])]
    exact ih r post (fun x hx => hpre x (List.mem_cons_of_mem a hx)) hr

/-- C6: the router evaluates the active agent's transfer predicates in
declaration order and selects the target of the first match; with no match
the active agent is unchanged; a matched but unknown target selects the
configured default agent together with a recoverable `UnknownAgent`
warning. -/
theorem agentRouter_spec (cfg : RouterConfig) (activeAgent : String)
    (rules : List TransferRule) (sig : RouterSignal) :
    ((∀ r ∈ rules, r.pred sig = false) →
      route cfg activeAgent rules sig = ⟨activeAgent, none⟩) ∧
    (∀ (pre : List TransferRule) (r : TransferRule) (post : List TransferRule),
      rules = pre ++ r :: post →
      (∀ p ∈ pre, p.pred sig = false) → r.pred sig = true →
      route cfg activeAgent rules sig =
        if cfg.knownAgents.contains r.target then ⟨r.target, none⟩
        else ⟨cfg.defaultAgent, some r.target⟩) := by
  constructor
  · intro h
    have hnone : rules.find? (fun r => r.pred sig) = none :=
      List.find?_eq_none.mpr (fun x hx => by simp [h x hx])
    simp [route, hnone]
  · intro pre r post hrules hpre hr
    subst hrules
    have hfind : ((pre ++ r :: post).find? (fun r => r.pred sig)) = some r :=
      find?_first_match (fun r => r.pred sig) pre r post (fun x hx => hpre x hx) hr
    simp [route, hfind]

/-- Witness for C6 on the spec's scenario: with `book_appointment` intent the
second rule (first match) transfers to `scheduler`; the same rule against a
configuration lacking `scheduler` falls back to the default agent with an
`UnknownAgent` warning; and a signal matching no rule keeps the active
agent. -/
theorem agentRouter_spec_witness :
    route ⟨["general", "scheduler", "human_handoff"], "general"⟩ "general"
      [⟨fun s => s.errorSignal, "human_handoff"⟩,
       ⟨fun s => s.intent == "book_appointment", "scheduler"⟩]
      ⟨"book_appointment", 92/100, false⟩ = ⟨"scheduler", none⟩ ∧
    route ⟨["general"], "general"⟩ "general"
      [⟨fun s => s.intent == "book_appointment", "scheduler"⟩]
      ⟨"book_appointment", 92/100, false⟩ = ⟨"general", some "scheduler"⟩ ∧
    route ⟨["general"], "general"⟩ "general"
      [⟨fun s => s.errorSignal, "human_handoff"⟩]
      ⟨"greeting", 1/2, false⟩ = ⟨"general", none⟩ := by
  refine ⟨?_, ?_, ?_⟩
  · exact ((agentRouter_spec ⟨["general", "scheduler", "human_handoff"], "general"⟩
      "general" _ ⟨"book_appointment", 92/100, false⟩).2
      [⟨fun s => s.errorSignal, "human_handoff"⟩]
      ⟨fun s => s.intent == "book_appointment", "scheduler"⟩ [] rfl
      (fun p hp => by rcases List.mem_singleton.mp hp with rfl; rfl) rfl).trans
      (by decide)
  · exact ((agentRouter_spec ⟨["general"], "general"⟩
      "general" _ ⟨"book_appointment", 92/100, false⟩).2
      [] ⟨fun s => s.intent == "book_appointment", "scheduler"⟩ [] rfl
      (fun p hp => absurd hp (List.not_mem_nil p)) rfl).trans
      (by decide)
  · exact (agentRouter_spec ⟨["general"], "general"⟩
      "general" _ ⟨"greeting", 1/2, false⟩).1
      (fun r hr => by rcases List.mem_singleton.mp hr with rfl; rfl)

/-! ### Theorems: Orchestrator timeout cancellation (C7) -/

/-- C7: a turn cancelled by the end-to-end timeout emits the fallback message
and an `error` event but leaves every persisted conversation record exactly
as it was, so retrying the inbound turn is safe; and on every path — timeout
or commit — a conversation record is either untouched or replaced whole,
never partially updated. -/
theorem orchestrator_timeout_spec (sys : OrchSystem) (cid : String)
    (att : TurnAttempt) (fallbackMsg : String) :
    (att.timedOut = true →
      (runTurn sys cid att fallbackMsg).1.conv = sys.conv ∧
      getTimeline (runTurn sys cid att fallbackMsg).1.store cid
        = getTimeline sys.store cid
          ++ [Event.mk ((sys.store.log cid).length + 1) .error "turn timeout"] ∧
      (runTurn sys cid att fallbackMsg).2 = [fallbackMsg]) ∧
    (∀ c : String,
      (runTurn sys cid att fallbackMsg).1.conv c = sys.conv c ∨
      (runTurn sys cid att fallbackMsg).1.conv c = att.newConv) := by
  constructor
  · intro h
    refine ⟨?_, ?_, ?_⟩ <;>
      simp [runTurn, h, getTimeline, appendEvents, EventStore.append]
  · intro c
    by_cases h : att.timedOut = true
    · left
      simp [runTurn, h]
    · by_cases hc : c = cid
      · right
        simp [runTurn, h, hc]
      · left
        simp [runTurn, h, hc]

/-- Witness for C7 at a concrete timed-out turn on the empty system: the
conversation map is unchanged and only the fallback message is returned. -/
theorem orchestrator_timeout_spec_witness :
    (runTurn emptySystem "c1" ⟨true, initProj, [], []⟩ "sorry").1.conv
      = emptySystem.conv ∧
    (runTurn emptySystem "c1" ⟨true, initProj, [], []⟩ "sorry").2 = ["sorry"] :=
  ⟨((orchestrator_timeout_spec emptySystem "c1" ⟨true, initProj, [], []⟩ "sorry").1
      rfl).1,
   ((orchestrator_timeout_spec emptySystem "c1" ⟨true, initProj, [], []⟩ "sorry").1
      rfl).2.2⟩

end Mash

namespace MashExamples

example : Mash.truncate "hello world".toList 5 =
    "hello...".toList := by decide

example : Mash.getInitials "".toList = "?".toList := by decide

example : Mash.getInitials "+1234567890".toList = "90".toList := by decide

example : Mash.getInitials "ada lovelace".toList = "AL".toList := by decide

example : Mash.getInitials " ".toList = [] := by decide

example : Mash.getInitials "12345".toList = "45".toList := by decide

end MashExamples
